import Mathlib

/-!
Verification of the delegation-resolution engine of go-tuf's client
(`client/delegations.go`) against its natural-language specification.

The Go source under `src/client/delegations.go` is embedded shallowly below.
Collaborators that live in other packages of the repository (the `data` and
`verify` packages, the local store and the downloader) are not under `src/`;
those parts are modelled from the spec and marked as such in their doc
comments.  Stack representation: the Go code keeps the stack in a slice with
the top at the last index; here the stack is a `List` with the top at the
head, so Go's append-at-end/pop-at-end becomes cons/uncons.
-/

set_option maxHeartbeats 1000000

namespace GoTuf

/-- Failure of the path matcher (spec §4.1 / §7 `MalformedPattern`). -/
inductive MatchError
  | malformedPattern
deriving DecidableEq

/-- Modelled from the spec: the failure kinds of `RoleVerifier.verify_and_decode`
(spec §4.3, §7); the `verify` package is not under `src/`. -/
inductive VerifyError
  | insufficientSignatures
  | parseFailed
  | versionMismatch (decoded expected : Int)
  | expired
deriving DecidableEq

/-- Modelled from the spec: Downloader failure kinds (spec §6);
the download collaborator is not under `src/`. -/
inductive DownloadError
  | notFound
  | integrityError
  | transportError
deriving DecidableEq

/-- Error taxonomy of one resolution (spec §7; the `Err*` values of the
client package returned by `getTargetFileMeta` and its callees). -/
inductive ResolveErr
  | noLocalSnapshot
  | decodeFailed (file : String) (cause : VerifyError)
  | roleNotInSnapshot (role : String) (snapshotVersion : Int)
  | downloadFailed (file : String) (cause : DownloadError)
  | unknownTarget (target : String) (snapshotVersion : Int)
  | maxDelegations (target : String) (maxDelegations : Nat) (snapshotVersion : Int)
  | storeFailed (file : String)
  | matchFailed (cause : MatchError)
  | verifierConstruction
deriving DecidableEq

/-- data.TargetFileMeta — modelled from the spec (§3): hash, length, custom;
the `data` package is not under `src/`. -/
structure TargetFileMeta where
  Hashes : String
  Length : Nat
  Custom : Option String
deriving DecidableEq

/-- Snapshot entry for one metadata file — modelled from the spec (§3):
`FileMeta{hash(es), length, version}`. -/
structure SnapshotFileMeta where
  Version : Int
  Hashes : String
  Length : Nat
deriving DecidableEq

/-- data.Snapshot — modelled from the spec (§3): loaded once per resolution,
pins every role's expected version and digest. -/
structure Snapshot where
  Version : Int
  Meta : List (String × SnapshotFileMeta)
deriving DecidableEq

/-- data.DelegatedRole.  Its declared path patterns / path-hash prefixes are
represented by the outcome of the path matcher on each target
(`MatchesPathFn`); `Modelled from the spec:` the matcher itself
(`data.DelegatedRole.MatchesPath`, spec §4.1) is code of this repository
that is not under `src/`, so each role carries the matcher's outcome
function for it. -/
structure DelegatedRole where
  Name : String
  Terminating : Bool
  MatchesPathFn : String → Except MatchError Bool

/-- data.DelegatedRole.MatchesPath, as used at `delegations.go:175`. -/
def DelegatedRole.MatchesPath (r : DelegatedRole) (file : String) :
    Except MatchError Bool :=
  r.MatchesPathFn file

/-- data.Delegations — modelled from the spec (§3): key table plus the
ordered sequence of delegated roles. -/
structure Delegations where
  Keys : List String
  Roles : List DelegatedRole

/-- data.Targets — modelled from the spec (§3): version, target map,
optional delegations. -/
structure Targets where
  Version : Int
  Targets : List (String × TargetFileMeta)
  Delegations : Option Delegations

/-- verify.DelegationsVerifier — modelled from the spec (§4.3): a capability
with an abstract signature-threshold check, an abstract byte decoder and an
abstract freshness check; the `verify` package is not under `src/`. -/
structure DelegationsVerifier where
  checkSigs : String → String → Except VerifyError Unit
  decode : String → Option Targets
  expired : Targets → Bool

instance : Inhabited DelegationsVerifier :=
  ⟨⟨fun _ _ => .ok (), fun _ => none, fun _ => false⟩⟩

/-- Modelled from the spec (§4.3): `verify_and_decode` must, after the
signature checks pass, decode the raw bytes, reject a decoded version
different from the expected one with `VersionMismatch`, and reject expired
metadata.  This is the contract shared by `verify.DB.Unmarshal` (the
root-anchored variant) and `verify.DelegationsVerifier.Unmarshal` (the
threshold variant), both outside `src/`. -/
def DelegationsVerifier.Unmarshal (v : DelegationsVerifier) (raw role : String)
    (expectedVersion : Int) : Except VerifyError Targets :=
  match v.checkSigs raw role with
  | .error e => .error e
  | .ok _ =>
    match v.decode raw with
    | none => .error .parseFailed
    | some t =>
      if t.Version ≠ expectedVersion then
        .error (.versionMismatch t.Version expectedVersion)
      else if v.expired t then .error .expired
      else .ok t

/-- The traversal record `delegation` of `delegations.go:118`. -/
structure Delegation where
  delegator : String
  verifier : DelegationsVerifier
  delegatee : DelegatedRole

/-- `delegationsIterator` of `delegations.go:124`; the stack's top is the
head of the list, and the visited set is kept as a list of names. -/
structure delegationsIterator where
  stack : List Delegation
  target : String
  visitedRoles : List String

/-- Core of `delegationsIterator.next` (`delegations.go:145`): pop the top;
a role already visited is skipped (the source does this by the recursive
self-call at line 156); an unvisited role is marked visited and, when
terminating, the remaining stack is emptied (line 165). -/
def nextAux : List Delegation → List String →
    Option (Delegation × List Delegation × List String)
  | [], _ => none
  | d :: rest, visited =>
    if visited.contains d.delegatee.Name then
      nextAux rest visited
    else
      let visited' := d.delegatee.Name :: visited
      if d.delegatee.Terminating then some (d, [], visited')
      else some (d, rest, visited')

/-- `delegationsIterator.next` (`delegations.go:145`). -/
def delegationsIterator.next (it : delegationsIterator) :
    Option (Delegation × delegationsIterator) :=
  match nextAux it.stack it.visitedRoles with
  | none => none
  | some (d, stack', visited') =>
    some (d, { it with stack := stack', visitedRoles := visited' })

/-- Core of `delegationsIterator.add` (`delegations.go:170`): the roles are
scanned in reverse declared order and each matching one is pushed, so the
first-declared matching role ends on top.  A matcher error stops the scan
and is reported, with the pushes made so far kept (the Go loop mutates the
stack in place before returning the error). -/
def addRoles (target delegator : String) (verifier : DelegationsVerifier) :
    List DelegatedRole → List Delegation → Option MatchError × List Delegation
  | [], stack => (none, stack)
  | r :: rest, stack =>
    match addRoles target delegator verifier rest stack with
    | (some e, stack') => (some e, stack')
    | (none, stack') =>
      match r.MatchesPath target with
      | .error e => (some e, stack')
      | .ok true =>
        (none, { delegator := delegator, verifier := verifier, delegatee := r } :: stack')
      | .ok false => (none, stack')

/-- `delegationsIterator.add` (`delegations.go:170`). -/
def delegationsIterator.add (it : delegationsIterator)
    (roles : List DelegatedRole) (delegator : String)
    (verifier : DelegationsVerifier) : Option MatchError × delegationsIterator :=
  match addRoles it.target delegator verifier roles it.stack with
  | (err, stack') => (err, { it with stack := stack' })

/-- The seed role of the traversal: the Go zero value `data.DelegatedRole`
with `Name: "targets"` (`delegations.go:137`).  Its path lists are absent,
which per the spec (§4.1) matches every target; its matcher is never
consulted because the seed is never passed through `add`. -/
def topTargetsRole : DelegatedRole :=
  { Name := "targets", Terminating := false, MatchesPathFn := fun _ => .ok true }

/-- `newDelegationsIterator` (`delegations.go:132`). -/
def newDelegationsIterator (target : String) : delegationsIterator :=
  { stack := [{ delegator := "", verifier := default, delegatee := topTargetsRole }],
    target := target,
    visitedRoles := [] }

/-- The client session state (`Client` fields used by `delegations.go`).
`MaxDelegations`, the snapshot fields and the two metadata views follow the
source; the remaining fields are `Modelled from the spec:` collaborator
capabilities (§6) of code not under `src/` — `getLocalMeta`, the snapshot
unmarshalling, the cache validation of `localMetaFromSnapshot`, the
downloader, `verify.NewDelegationsVerifier` and the store's failure mode. -/
structure Client where
  MaxDelegations : Nat
  db : DelegationsVerifier
  snapshotVer : Int
  localMeta : List (String × String)
  localStore : List (String × String)
  getLocalMetaErr : Option ResolveErr
  unmarshalSnapshot : String → String → Int → Except VerifyError Snapshot
  validMeta : String → SnapshotFileMeta → Bool
  download : String → SnapshotFileMeta → Except DownloadError String
  newDelegationsVerifierFn : Delegations → Option DelegationsVerifier
  setMetaFails : String → String → Bool

/-- `Client.loadLocalSnapshot` (`delegations.go:59`). -/
def loadLocalSnapshot (c : Client) : Except ResolveErr Snapshot :=
  match c.getLocalMetaErr with
  | some e => .error e
  | none =>
    match c.localMeta.lookup "snapshot.json" with
    | none => .error .noLocalSnapshot
    | some rawS =>
      match c.unmarshalSnapshot rawS "snapshot" c.snapshotVer with
      | .error e => .error (.decodeFailed "snapshot.json" e)
      | .ok snapshot => .ok snapshot

/-- `Client.localMetaFromSnapshot` — modelled from the spec (§4.4 step 2,
§6 `LocalCache.get`): read cached bytes for the filename and accept them
only if they validate against the snapshot-declared hash/length. -/
def localMetaFromSnapshot (c : Client) (fileName : String)
    (fm : SnapshotFileMeta) : Option String :=
  match c.localMeta.lookup fileName with
  | some raw => if c.validMeta raw fm then some raw else none
  | none => none

/-- `LocalStore.SetMeta` — modelled from the spec (§6 `LocalCache.put`):
persist bytes under the filename; an IO failure leaves the store unchanged
and is reported. -/
def SetMeta (c : Client) (store : List (String × String))
    (fileName raw : String) : Except ResolveErr (List (String × String)) :=
  if c.setMetaFails fileName raw then .error (.storeFailed fileName)
  else .ok ((fileName, raw) :: store)

/-- `Client.loadDelegatedTargets` (`delegations.go:77`): look the role's
filename up in the snapshot, take the bytes from the local cache or
download them, verify and decode them — dispatching on the role name
between the root-anchored database and the edge's delegations verifier —
and persist freshly downloaded bytes only after that succeeds.  The store
is threaded explicitly so its state is visible on every path. -/
def loadDelegatedTargets (c : Client) (store : List (String × String))
    (snapshot : Snapshot) (role : String) (verifier : DelegationsVerifier) :
    Except ResolveErr Targets × List (String × String) :=
  let fileName := role ++ ".json"
  match snapshot.Meta.lookup fileName with
  | none => (.error (.roleNotInSnapshot role snapshot.Version), store)
  | some fileMeta =>
    let rawRes : Except ResolveErr (String × Bool) :=
      match localMetaFromSnapshot c fileName fileMeta with
      | some raw => .ok (raw, true)
      | none =>
        match c.download fileName fileMeta with
        | .error e => .error (.downloadFailed fileName e)
        | .ok raw => .ok (raw, false)
    match rawRes with
    | .error e => (.error e, store)
    | .ok (raw, alreadyStored) =>
      let unmarshalRes :=
        if role == "targets" then c.db.Unmarshal raw role fileMeta.Version
        else verifier.Unmarshal raw role fileMeta.Version
      match unmarshalRes with
      | .error e => (.error (.decodeFailed fileName e), store)
      | .ok targets =>
        if alreadyStored then (.ok targets, store)
        else
          match SetMeta c store fileName raw with
          | .error e => (.error e, store)
          | .ok store' => (.ok targets, store')

/-- Observable step of a resolution, recorded for the spec's directly
observable collaborator invocations (§8): a loader invocation for an edge —
with the flag telling whether the root-trust database was the verifier the
dispatch at `delegations.go:100` selected — or a registration of newly
discovered delegations. -/
inductive Event
  | loaded (d : Delegation) (usedRootDb : Bool)
  | registered (delegator : String) (roles : List DelegatedRole)

/-- Projection of a load event to the loaded role name and the dispatch flag. -/
def Event.loadInfo : Event → Option (String × Bool)
  | .loaded d b => some (d.delegatee.Name, b)
  | .registered _ _ => none

/-- The loop body of `Client.getTargetFileMeta` (`delegations.go:23`):
`fuel` is the remaining iteration budget of `for i := 0; i < c.MaxDelegations`.
Each iteration pulls the next edge (exhaustion fails with `UnknownTarget`),
loads and verifies its metadata, returns the target's entry on a hit, and
otherwise registers the newly discovered delegations. -/
def resolveLoop (c : Client) (snapshot : Snapshot) (target : String) :
    Nat → delegationsIterator → List (String × String) → List Event →
    Except ResolveErr TargetFileMeta × List (String × String) × List Event
  | 0, _, store, log =>
    (.error (.maxDelegations target c.MaxDelegations snapshot.Version), store, log)
  | fuel+1, it, store, log =>
    match it.next with
    | none => (.error (.unknownTarget target snapshot.Version), store, log)
    | some (d, it') =>
      let log' := log ++ [.loaded d (d.delegatee.Name == "targets")]
      match loadDelegatedTargets c store snapshot d.delegatee.Name d.verifier with
      | (.error e, store') => (.error e, store', log')
      | (.ok targets, store') =>
        match targets.Targets.lookup target with
        | some m => (.ok m, store', log')
        | none =>
          match targets.Delegations with
          | none => resolveLoop c snapshot target fuel it' store' log'
          | some dels =>
            match c.newDelegationsVerifierFn dels with
            | none => (.error .verifierConstruction, store', log')
            | some dv =>
              match it'.add dels.Roles d.delegatee.Name dv with
              | (some e, _) => (.error (.matchFailed e), store', log')
              | (none, it'') =>
                resolveLoop c snapshot target fuel it'' store'
                  (log' ++ [.registered d.delegatee.Name dels.Roles])

/-- `Client.getTargetFileMeta` (`delegations.go:11`), with the local store
threaded and the observable event log returned alongside the result. -/
def getTargetFileMeta (c : Client) (target : String) :
    Except ResolveErr TargetFileMeta × List (String × String) × List Event :=
  match loadLocalSnapshot c with
  | .error e => (.error e, c.localStore, [])
  | .ok snapshot =>
    resolveLoop c snapshot target c.MaxDelegations
      (newDelegationsIterator target) c.localStore []

/-- One interaction with the iterator: a `next()` call or an `add` call,
as issued by the resolver during one resolution. -/
inductive ItOp
  | nextOp
  | addOp (roles : List DelegatedRole) (delegator : String)
      (verifier : DelegationsVerifier)

/-- Run a sequence of iterator interactions, collecting the role names the
`next()` calls return.  An exhausted `next()` yields nothing; an `add`
keeps the (possibly partially extended) iterator exactly as the source
leaves it. -/
def runOps : List ItOp → delegationsIterator →
    List String × delegationsIterator
  | [], it => ([], it)
  | .nextOp :: ops, it =>
    match it.next with
    | none => runOps ops it
    | some (d, it') =>
      match runOps ops it' with
      | (ns, itf) => (d.delegatee.Name :: ns, itf)
  | .addOp roles delegator verifier :: ops, it =>
    match it.add roles delegator verifier with
    | (_, it') => runOps ops it'

/-- Visit order produced by the iterator when driven as `getTargetFileMeta`
drives it, on a graph `g` giving each role's declared delegations, in the
run where every load succeeds and the target is found nowhere: pull the
next edge, register its delegations, repeat.  `fuel` counts `next()` calls
exactly as the resolver's `MaxDelegations` loop does. -/
def iterTraverse (g : String → List DelegatedRole) (target : String) :
    Nat → List Delegation → List String → Except MatchError (List String)
  | 0, _, _ => .ok []
  | fuel+1, stack, visited =>
    match nextAux stack visited with
    | none => .ok []
    | some (d, stack', visited') =>
      match addRoles target d.delegatee.Name default (g d.delegatee.Name) stack' with
      | (some e, _) => .error e
      | (none, stack'') =>
        match iterTraverse g target fuel stack'' visited' with
        | .error e => .error e
        | .ok rest => .ok (d.delegatee.Name :: rest)

/-- Whether the matcher reports that a role matches the target. -/
def matchesTrue (target : String) (r : DelegatedRole) : Bool :=
  match r.MatchesPathFn target with
  | .ok true => true
  | _ => false

/-- The edges a visit of `name` contributes: its declared delegations in
declared order, restricted to those matching the target. -/
def matchedDelegations (g : String → List DelegatedRole) (target name : String) :
    List Delegation :=
  ((g name).filter (matchesTrue target)).map
    (fun r => { delegator := name, verifier := default, delegatee := r })

/-- Result of the reference pre-order traversal: the visit order, the final
visited set, whether a terminating role stopped the traversal, and whether
the depth fuel sufficed (`ok = false` means the run was truncated). -/
structure DfsOut where
  visits : List String
  visited : List String
  stopped : Bool
  ok : Bool

/-- Whether every pending edge's role name is already visited (the
traversal would only skip). -/
def dfsSkipAll : List Delegation → List String → Bool
  | [], _ => true
  | d :: rest, visited =>
    visited.contains d.delegatee.Name && dfsSkipAll rest visited

/-- One depth level of the reference pre-order traversal: `deeper` explores
subtrees one level down; pending edges at the current level are handled
structurally. -/
def dfsForestAux (g : String → List DelegatedRole) (target : String)
    (deeper : List Delegation → List String → DfsOut) :
    List Delegation → List String → DfsOut
  | [], visited => ⟨[], visited, false, true⟩
  | d :: rest, visited =>
    if visited.contains d.delegatee.Name then
      dfsForestAux g target deeper rest visited
    else
      let sub := deeper (matchedDelegations g target d.delegatee.Name)
        (d.delegatee.Name :: visited)
      if d.delegatee.Terminating || sub.stopped then
        ⟨d.delegatee.Name :: sub.visits, sub.visited, true, sub.ok⟩
      else
        let restOut := dfsForestAux g target deeper rest sub.visited
        ⟨d.delegatee.Name :: (sub.visits ++ restOut.visits), restOut.visited,
          restOut.stopped, sub.ok && restOut.ok⟩

/-- Reference pre-order depth-first traversal, following the spec's words
(§3 invariants, §4.2): visit a pending edge unless its role name was
already visited; then explore its entire subtree — its matching delegations
in declared order — before any later sibling; a terminating role's visit
stops the whole traversal once its subtree is done.  `fuel` bounds the
recursion depth only; `ok = false` reports that the depth budget was hit. -/
def dfsForest (g : String → List DelegatedRole) (target : String) :
    Nat → List Delegation → List String → DfsOut
  | 0, stack, visited => ⟨[], visited, false, dfsSkipAll stack visited⟩
  | fuel+1, stack, visited =>
    dfsForestAux g target (dfsForest g target fuel) stack visited

/-- Spec-side characterization for the exhaustion failure (§4.5 step 3a):
the traversal runs out of pending edges — `next()` returns none — within
the iteration budget, before the target is found and before any collaborator
failure. -/
def exhaustedBeforeFound (c : Client) (snapshot : Snapshot) (target : String) :
    Nat → delegationsIterator → List (String × String) → Bool
  | 0, _, _ => false
  | fuel+1, it, store =>
    match it.next with
    | none => true
    | some (d, it') =>
      match loadDelegatedTargets c store snapshot d.delegatee.Name d.verifier with
      | (.error _, _) => false
      | (.ok targets, store') =>
        match targets.Targets.lookup target with
        | some _ => false
        | none =>
          match targets.Delegations with
          | none => exhaustedBeforeFound c snapshot target fuel it' store'
          | some dels =>
            match c.newDelegationsVerifierFn dels with
            | none => false
            | some dv =>
              match it'.add dels.Roles d.delegatee.Name dv with
              | (some _, _) => false
              | (none, it'') => exhaustedBeforeFound c snapshot target fuel it'' store'

/-- Spec-side characterization for the bound failure (§4.5 step 4): the
loop completes its whole iteration budget without returning — every
iteration pulls an edge, loads it, misses the target and registers its
delegations, and the budget runs out. -/
def runsOutOfBudget (c : Client) (snapshot : Snapshot) (target : String) :
    Nat → delegationsIterator → List (String × String) → Bool
  | 0, _, _ => true
  | fuel+1, it, store =>
    match it.next with
    | none => false
    | some (d, it') =>
      match loadDelegatedTargets c store snapshot d.delegatee.Name d.verifier with
      | (.error _, _) => false
      | (.ok targets, store') =>
        match targets.Targets.lookup target with
        | some _ => false
        | none =>
          match targets.Delegations with
          | none => runsOutOfBudget c snapshot target fuel it' store'
          | some dels =>
            match c.newDelegationsVerifierFn dels with
            | none => false
            | some dv =>
              match it'.add dels.Roles d.delegatee.Name dv with
              | (some _, _) => false
              | (none, it'') => runsOutOfBudget c snapshot target fuel it'' store'

/-- Call depth of one `delegationsIterator.next` invocation: the source
(`delegations.go:156`) skips an already-visited role by the self-call
`return d.next()`, so one outer call consumes one frame per consecutive
already-visited duplicate on top of the pending stack, plus the frame that
produces the answer. -/
def nextCallDepth : List Delegation → List String → Nat
  | [], _ => 1
  | d :: rest, visited =>
    if visited.contains d.delegatee.Name then 1 + nextCallDepth rest visited
    else 1

/-! ### Concrete scenarios used to exercise the definitions -/

/-- Matcher outcome of a role whose declared patterns match every target. -/
def okMatch : String → Except MatchError Bool := fun _ => .ok true

/-- A delegated role whose patterns match every target. -/
def mkRole (name : String) (term : Bool) : DelegatedRole :=
  { Name := name, Terminating := term, MatchesPathFn := okMatch }

/-- A delegated role whose patterns match no target. -/
def mkNoMatchRole (name : String) : DelegatedRole :=
  { Name := name, Terminating := false, MatchesPathFn := fun _ => .ok false }

/-- A delegated role whose pattern evaluation fails. -/
def mkBadPatternRole (name : String) : DelegatedRole :=
  { Name := name, Terminating := false,
    MatchesPathFn := fun _ => .error .malformedPattern }

/-- A verifier that accepts every signature, decodes raw bytes through the
given table and treats nothing as expired. -/
def tableVerifier (table : String → Option Targets) : DelegationsVerifier :=
  { checkSigs := fun _ _ => .ok (), decode := table, expired := fun _ => false }

/-- Two-role cycle scenario: top targets delegates to A, A to B, B back to
A; the requested path is absent everywhere. -/
def cycTable : String → Option Targets := fun raw =>
  if raw = "rawT" then
    some { Version := 1, Targets := [], Delegations := some { Keys := [], Roles := [mkRole "A" false] } }
  else if raw = "rawA" then
    some { Version := 1, Targets := [], Delegations := some { Keys := [], Roles := [mkRole "B" false] } }
  else if raw = "rawB" then
    some { Version := 1, Targets := [], Delegations := some { Keys := [], Roles := [mkRole "A" false] } }
  else none

/-- The pinned snapshot of the concrete scenarios. -/
def cycSnapshot : Snapshot :=
  { Version := 1,
    Meta := [("targets.json", { Version := 1, Hashes := "h", Length := 1 }),
             ("A.json", { Version := 1, Hashes := "h", Length := 1 }),
             ("B.json", { Version := 1, Hashes := "h", Length := 1 })] }

/-- Client for the two-role cycle scenario, fully cached. -/
def cycClient : Client :=
  { MaxDelegations := 10,
    db := tableVerifier cycTable,
    snapshotVer := 1,
    localMeta := [("snapshot.json", "rawS"), ("targets.json", "rawT"),
                  ("A.json", "rawA"), ("B.json", "rawB")],
    localStore := [],
    getLocalMetaErr := none,
    unmarshalSnapshot := fun _ _ _ => .ok cycSnapshot,
    validMeta := fun _ _ => true,
    download := fun _ _ => .error .notFound,
    newDelegationsVerifierFn := fun _ => some (tableVerifier cycTable),
    setMetaFails := fun _ _ => false }

/-- Metadata entry returned for the top-level hit scenario. -/
def hitMeta : TargetFileMeta := { Hashes := "deadbeef", Length := 42, Custom := none }

/-- Top-level hit scenario: the requested path sits directly in the top
`targets` role's map. -/
def hitTable : String → Option Targets := fun raw =>
  if raw = "rawT" then
    some { Version := 1, Targets := [("a/b", hitMeta)],
           Delegations := some { Keys := [], Roles := [mkRole "A" false] } }
  else none

/-- Client for the top-level hit scenario. -/
def hitClient : Client :=
  { cycClient with db := tableVerifier hitTable,
                   newDelegationsVerifierFn := fun _ => some (tableVerifier hitTable) }

instance {ε α : Type} [DecidableEq ε] [DecidableEq α] : DecidableEq (Except ε α) :=
  fun a b =>
    match a, b with
    | .ok x, .ok y =>
      if h : x = y then isTrue (h ▸ rfl)
      else isFalse (fun heq => h (Except.ok.inj heq))
    | .error e, .error f =>
      if h : e = f then isTrue (h ▸ rfl)
      else isFalse (fun heq => h (Except.error.inj heq))
    | .ok _, .error _ => isFalse (fun heq => Except.noConfusion heq)
    | .error _, .ok _ => isFalse (fun heq => Except.noConfusion heq)

/-! ### Basic facts about the iterator operations -/

theorem nextAux_some (stack : List Delegation) (visited : List String)
    (d : Delegation) (stack' : List Delegation) (visited' : List String)
    (h : nextAux stack visited = some (d, stack', visited')) :
    visited.contains d.delegatee.Name = false ∧
      visited' = d.delegatee.Name :: visited ∧ d ∈ stack ∧
      (∀ e ∈ stack', e ∈ stack) := by
  induction stack with
  | nil => simp [nextAux] at h
  | cons hd tl ih =>
    by_cases hv : visited.contains hd.delegatee.Name
    · rw [nextAux, if_pos hv] at h
      obtain ⟨h1, h2, h3, h4⟩ := ih h
      exact ⟨h1, h2, List.mem_cons_of_mem _ h3,
        fun e he => List.mem_cons_of_mem _ (h4 e he)⟩
    · rw [nextAux, if_neg hv] at h
      by_cases ht : hd.delegatee.Terminating
      · rw [if_pos ht] at h
        simp only [Option.some.injEq, Prod.mk.injEq] at h
        obtain ⟨rfl, rfl, rfl⟩ := h
        exact ⟨by simpa using hv, rfl, List.mem_cons_self .., by simp⟩
      · rw [if_neg ht] at h
        simp only [Option.some.injEq, Prod.mk.injEq] at h
        obtain ⟨rfl, rfl, rfl⟩ := h
        exact ⟨by simpa using hv, rfl, List.mem_cons_self ..,
          fun e he => List.mem_cons_of_mem _ he⟩

theorem nextAux_terminating (stack : List Delegation) (visited : List String)
    (d : Delegation) (stack' : List Delegation) (visited' : List String)
    (h : nextAux stack visited = some (d, stack', visited'))
    (ht : d.delegatee.Terminating = true) : stack' = [] := by
  induction stack with
  | nil => simp [nextAux] at h
  | cons hd tl ih =>
    by_cases hv : visited.contains hd.delegatee.Name
    · rw [nextAux, if_pos hv] at h
      exact ih h
    · rw [nextAux, if_neg hv] at h
      by_cases ht' : hd.delegatee.Terminating
      · rw [if_pos ht'] at h
        simp only [Option.some.injEq, Prod.mk.injEq] at h
        exact h.2.1.symm
      · rw [if_neg ht'] at h
        simp only [Option.some.injEq, Prod.mk.injEq] at h
        rw [h.1] at ht'
        exact absurd ht ht'

theorem next_visited (it : delegationsIterator) (d : Delegation)
    (it' : delegationsIterator) (h : it.next = some (d, it')) :
    it.visitedRoles.contains d.delegatee.Name = false ∧
      it'.visitedRoles = d.delegatee.Name :: it.visitedRoles ∧
      it'.target = it.target ∧ d ∈ it.stack ∧ (∀ e ∈ it'.stack, e ∈ it.stack) := by
  unfold delegationsIterator.next at h
  cases hn : nextAux it.stack it.visitedRoles with
  | none => rw [hn] at h; exact absurd h (by simp)
  | some v =>
    obtain ⟨d0, stack', visited'⟩ := v
    rw [hn] at h
    injection h with h'
    have hd : d0 = d := congrArg Prod.fst h'
    have hit : ({ it with stack := stack', visitedRoles := visited' } : delegationsIterator) = it' :=
      congrArg (fun p => p.2) h'
    subst hd
    obtain ⟨h1, h2, h3, h4⟩ := nextAux_some _ _ _ _ _ hn
    refine ⟨h1, ?_, ?_, h3, ?_⟩
    · rw [← hit]; exact h2
    · rw [← hit]
    · intro e he
      rw [← hit] at he
      exact h4 e he

theorem add_visited (it : delegationsIterator) (roles : List DelegatedRole)
    (delegator : String) (verifier : DelegationsVerifier) :
    ((it.add roles delegator verifier).2.visitedRoles = it.visitedRoles ∧
      (it.add roles delegator verifier).2.target = it.target) := by
  unfold delegationsIterator.add
  exact ⟨rfl, rfl⟩

theorem addRoles_mem (target delegator : String) (verifier : DelegationsVerifier)
    (roles : List DelegatedRole) (stack : List Delegation) :
    ∀ e ∈ (addRoles target delegator verifier roles stack).2,
      e ∈ stack ∨ (e.delegatee ∈ roles ∧
        e.delegatee.MatchesPathFn target = .ok true ∧
        e.delegator = delegator ∧ e.verifier = verifier) := by
  induction roles with
  | nil => intro e he; exact Or.inl (by simpa [addRoles] using he)
  | cons r rest ih =>
    intro e he
    rcases hrest : addRoles target delegator verifier rest stack with ⟨err, stack'⟩
    have hmem : ∀ e ∈ stack', e ∈ stack ∨ (e.delegatee ∈ rest ∧
        e.delegatee.MatchesPathFn target = .ok true ∧
        e.delegator = delegator ∧ e.verifier = verifier) := by
      intro e' he'
      exact ih e' (by rw [hrest]; exact he')
    cases err with
    | some e0 =>
      rw [addRoles, hrest] at he
      rcases hmem e he with h | h
      · exact Or.inl h
      · exact Or.inr ⟨List.mem_cons_of_mem _ h.1, h.2⟩
    | none =>
      rw [addRoles, hrest] at he
      cases hm : r.MatchesPath target with
      | error e0 =>
        rw [hm] at he
        rcases hmem e he with h | h
        · exact Or.inl h
        · exact Or.inr ⟨List.mem_cons_of_mem _ h.1, h.2⟩
      | ok b =>
        cases b with
        | true =>
          rw [hm] at he
          rcases List.mem_cons.mp he with rfl | he'
          · exact Or.inr ⟨List.mem_cons_self .., hm, rfl, rfl⟩
          · rcases hmem e he' with h | h
            · exact Or.inl h
            · exact Or.inr ⟨List.mem_cons_of_mem _ h.1, h.2⟩
        | false =>
          rw [hm] at he
          rcases hmem e he with h | h
          · exact Or.inl h
          · exact Or.inr ⟨List.mem_cons_of_mem _ h.1, h.2⟩

theorem addRoles_total (target delegator : String) (verifier : DelegationsVerifier)
    (roles : List DelegatedRole) (stack : List Delegation)
    (h : ∀ r ∈ roles, ∃ b, r.MatchesPathFn target = .ok b) :
    addRoles target delegator verifier roles stack =
      (none, ((roles.filter (matchesTrue target)).map
        (fun r => { delegator := delegator, verifier := verifier, delegatee := r })) ++ stack) := by
  induction roles with
  | nil => simp [addRoles]
  | cons r rest ih =>
    have hrest := ih (fun r' hr' => h r' (List.mem_cons_of_mem _ hr'))
    obtain ⟨b, hb⟩ := h r (List.mem_cons_self ..)
    cases b with
    | true =>
      rw [addRoles, hrest]
      have hm : r.MatchesPath target = .ok true := hb
      rw [hm]
      simp [List.filter_cons, matchesTrue, hb]
    | false =>
      rw [addRoles, hrest]
      have hm : r.MatchesPath target = .ok false := hb
      rw [hm]
      simp [List.filter_cons, matchesTrue, hb]

theorem addRoles_none_iff (target delegator : String)
    (verifier : DelegationsVerifier) (roles : List DelegatedRole)
    (stack : List Delegation) :
    (addRoles target delegator verifier roles stack).1 = none ↔
      ∀ r ∈ roles, ∃ b, r.MatchesPathFn target = .ok b := by
  induction roles with
  | nil => simp [addRoles]
  | cons r rest ih =>
    constructor
    · intro h
      rcases hrest : addRoles target delegator verifier rest stack with ⟨err, stack'⟩
      rw [addRoles, hrest] at h
      cases err with
      | some e0 => exact absurd h (by simp)
      | none =>
        have hall := ih.mp (by rw [hrest])
        intro r' hr'
        rcases List.mem_cons.mp hr' with rfl | hmem
        · cases hm : r'.MatchesPath target with
          | error e0 => rw [hm] at h; exact absurd h (by simp)
          | ok b => exact ⟨b, hm⟩
        · exact hall r' hmem
    · intro h
      rw [addRoles_total target delegator verifier (r :: rest) stack h]

/-! ### The visited set makes every role name appear at most once -/

theorem runOps_fresh (ops : List ItOp) (it : delegationsIterator) :
    (runOps ops it).1.Nodup ∧
      ∀ n ∈ (runOps ops it).1, it.visitedRoles.contains n = false := by
  induction ops generalizing it with
  | nil => simp [runOps]
  | cons op ops ih =>
    cases op with
    | nextOp =>
      cases hn : it.next with
      | none => rw [runOps, hn]; exact ih it
      | some v =>
        obtain ⟨d, it'⟩ := v
        obtain ⟨hfresh, hvis, -, -, -⟩ := next_visited it d it' hn
        rcases hrun : runOps ops it' with ⟨ns, itf⟩
        simp only [runOps, hn, hrun]
        obtain ⟨hnodup, hforall⟩ := ih it'
        rw [hrun] at hnodup hforall
        have hname : d.delegatee.Name ∉ ns := by
          intro hmem
          have := hforall _ hmem
          rw [hvis] at this
          simp [List.contains_cons] at this
        refine ⟨List.nodup_cons.mpr ⟨hname, hnodup⟩, ?_⟩
        intro n hn'
        rcases List.mem_cons.mp hn' with rfl | hmem
        · exact hfresh
        · have := hforall _ hmem
          rw [hvis] at this
          simp only [List.contains_cons, Bool.or_eq_false_iff] at this
          exact this.2
    | addOp roles delegator verifier =>
      rcases hadd : it.add roles delegator verifier with ⟨err, it'⟩
      rw [runOps, hadd]
      have hvis : it'.visitedRoles = it.visitedRoles := by
        have := (add_visited it roles delegator verifier).1
        rw [hadd] at this
        exact this
      obtain ⟨hnodup, hforall⟩ := ih it'
      exact ⟨hnodup, fun n hn' => hvis ▸ hforall n hn'⟩

/-! ### The stack discipline realizes pre-order depth-first traversal -/

theorem dfsForest_nil (g : String → List DelegatedRole) (target : String)
    (fuel : Nat) (visited : List String) :
    dfsForest g target fuel [] visited = ⟨[], visited, false, true⟩ := by
  cases fuel with
  | zero => rfl
  | succ f => rfl

/-- The subtree run a visit of `d` performs: its matching delegations,
explored with the role name freshly marked visited. -/
def dfsSub (g : String → List DelegatedRole) (target : String) (fuel : Nat)
    (d : Delegation) (visited : List String) : DfsOut :=
  dfsForest g target fuel (matchedDelegations g target d.delegatee.Name)
    (d.delegatee.Name :: visited)

theorem dfsForest_skip (g : String → List DelegatedRole) (target : String)
    (fuel : Nat) (d : Delegation) (rest : List Delegation)
    (visited : List String) (h : visited.contains d.delegatee.Name = true) :
    dfsForest g target fuel (d :: rest) visited =
      dfsForest g target fuel rest visited := by
  cases fuel with
  | zero =>
    exact congrArg (fun b => (⟨[], visited, false, b⟩ : DfsOut))
      (by simp only [dfsSkipAll, h, Bool.true_and])
  | succ f =>
    show dfsForestAux g target (dfsForest g target f) (d :: rest) visited =
      dfsForestAux g target (dfsForest g target f) rest visited
    conv_lhs => rw [dfsForestAux.eq_def]
    simp only [h, if_true]

theorem dfsForest_visit (g : String → List DelegatedRole) (target : String)
    (fuel : Nat) (d : Delegation) (rest : List Delegation)
    (visited : List String) (h : visited.contains d.delegatee.Name = false) :
    dfsForest g target (fuel+1) (d :: rest) visited =
      (if (d.delegatee.Terminating || (dfsSub g target fuel d visited).stopped) = true then
         ⟨d.delegatee.Name :: (dfsSub g target fuel d visited).visits,
           (dfsSub g target fuel d visited).visited, true,
           (dfsSub g target fuel d visited).ok⟩
       else
         ⟨d.delegatee.Name :: ((dfsSub g target fuel d visited).visits ++
             (dfsForest g target (fuel+1) rest (dfsSub g target fuel d visited).visited).visits),
           (dfsForest g target (fuel+1) rest (dfsSub g target fuel d visited).visited).visited,
           (dfsForest g target (fuel+1) rest (dfsSub g target fuel d visited).visited).stopped,
           (dfsSub g target fuel d visited).ok &&
             (dfsForest g target (fuel+1) rest (dfsSub g target fuel d visited).visited).ok⟩) := by
  show dfsForestAux g target (dfsForest g target fuel) (d :: rest) visited = _
  conv_lhs => rw [dfsForestAux.eq_def]
  simp only [h, Bool.false_eq_true, if_false, dfsSub]
  rfl

theorem dfsForest_zero_unvisited (g : String → List DelegatedRole)
    (target : String) (d : Delegation) (rest : List Delegation)
    (visited : List String) (h : visited.contains d.delegatee.Name = false) :
    dfsForest g target 0 (d :: rest) visited = ⟨[], visited, false, false⟩ := by
  exact congrArg (fun b => (⟨[], visited, false, b⟩ : DfsOut))
    (by simp only [dfsSkipAll, h, Bool.false_and])

theorem dfsForest_exhausted (g : String → List DelegatedRole) (target : String)
    (fuel : Nat) (stack : List Delegation) (visited : List String)
    (h : nextAux stack visited = none) :
    dfsForest g target fuel stack visited = ⟨[], visited, false, true⟩ := by
  induction stack with
  | nil => exact dfsForest_nil ..
  | cons hd tl ih =>
    by_cases hv : visited.contains hd.delegatee.Name
    · rw [nextAux, if_pos hv] at h
      rw [dfsForest_skip _ _ _ _ _ _ hv]
      exact ih h
    · rw [nextAux, if_neg hv] at h
      by_cases ht : hd.delegatee.Terminating
      · rw [if_pos ht] at h; exact absurd h (by simp)
      · rw [if_neg ht] at h; exact absurd h (by simp)

theorem dfsSkipAll_dfsForest (g : String → List DelegatedRole) (target : String)
    (fuel : Nat) :
    ∀ stack visited, dfsSkipAll stack visited = true →
      dfsForest g target fuel stack visited = ⟨[], visited, false, true⟩ := by
  intro stack
  induction stack with
  | nil => intro visited _; exact dfsForest_nil ..
  | cons d rest ih =>
    intro visited h
    simp only [dfsSkipAll, Bool.and_eq_true] at h
    rw [dfsForest_skip _ _ _ _ _ _ h.1]
    exact ih visited h.2

theorem dfsSkipAll_append (as bs : List Delegation) (v : List String)
    (h : dfsSkipAll as v = true) :
    dfsSkipAll (as ++ bs) v = dfsSkipAll bs v := by
  induction as with
  | nil => rfl
  | cons d rest ih =>
    simp only [dfsSkipAll, Bool.and_eq_true] at h
    simp only [List.cons_append, dfsSkipAll, h.1, Bool.true_and]
    exact ih h.2

theorem dfsForest_mono (g : String → List DelegatedRole) (target : String) :
    ∀ fuel stack visited fuel', fuel ≤ fuel' →
      (dfsForest g target fuel stack visited).ok = true →
      dfsForest g target fuel' stack visited =
        dfsForest g target fuel stack visited := by
  intro fuel
  induction fuel with
  | zero =>
    intro stack visited fuel' _ hok
    have hskip : dfsSkipAll stack visited = true := hok
    rw [dfsSkipAll_dfsForest g target fuel' stack visited hskip,
      dfsSkipAll_dfsForest g target 0 stack visited hskip]
  | succ fuel ihf =>
    intro stack
    induction stack with
    | nil =>
      intro visited fuel' _ _
      rw [dfsForest_nil, dfsForest_nil]
    | cons d rest ihs =>
      intro visited fuel' hle hok
      obtain ⟨fuel'', rfl⟩ : ∃ k, fuel' = k + 1 := ⟨fuel' - 1, by omega⟩
      have hle' : fuel ≤ fuel'' := by omega
      by_cases hv : visited.contains d.delegatee.Name
      · rw [dfsForest_skip _ _ _ _ _ _ hv] at hok ⊢
        rw [dfsForest_skip _ _ _ _ _ _ hv]
        exact ihs visited (fuel''+1) hle hok
      · have hv' : visited.contains d.delegatee.Name = false := by simpa using hv
        rw [dfsForest_visit _ _ _ _ _ _ hv'] at hok ⊢
        rw [dfsForest_visit _ _ _ _ _ _ hv']
        by_cases hstop : (d.delegatee.Terminating ||
            (dfsSub g target fuel d visited).stopped) = true
        · rw [if_pos hstop] at hok
          have hsubok : (dfsSub g target fuel d visited).ok = true := hok
          have hsub' : dfsSub g target fuel'' d visited =
              dfsSub g target fuel d visited := by
            unfold dfsSub
            exact ihf _ _ fuel'' hle' hsubok
          rw [hsub', if_pos hstop, if_pos hstop]
        · rw [if_neg hstop] at hok
          have hok' : ((dfsSub g target fuel d visited).ok &&
              (dfsForest g target (fuel+1) rest
                (dfsSub g target fuel d visited).visited).ok) = true := hok
          have hsubok := (Bool.and_eq_true_iff.mp hok').1
          have hrestok := (Bool.and_eq_true_iff.mp hok').2
          have hsub' : dfsSub g target fuel'' d visited =
              dfsSub g target fuel d visited := by
            unfold dfsSub
            exact ihf _ _ fuel'' hle' hsubok
          rw [hsub', if_neg hstop]
          rw [ihs ((dfsSub g target fuel d visited).visited) (fuel''+1) hle hrestok,
            if_neg hstop]

theorem DfsOut.eta (o : DfsOut) :
    (⟨o.visits, o.visited, o.stopped, o.ok⟩ : DfsOut) = o := rfl

/-- Sequential composition of two traversal results: the second forest runs
after the first, unless the first stopped the traversal. -/
def combineOut (o1 o2 : DfsOut) : DfsOut :=
  ⟨o1.visits ++ o2.visits, o2.visited, o2.stopped, o2.ok⟩

theorem dfsForest_append (g : String → List DelegatedRole) (target : String) :
    ∀ fuel as visited, (dfsForest g target fuel as visited).ok = true →
      ∀ bs, dfsForest g target fuel (as ++ bs) visited =
        (if (dfsForest g target fuel as visited).stopped = true
         then dfsForest g target fuel as visited
         else combineOut (dfsForest g target fuel as visited)
           (dfsForest g target fuel bs (dfsForest g target fuel as visited).visited)) := by
  intro fuel
  induction fuel with
  | zero =>
    intro as visited hok bs
    have hskip : dfsSkipAll as visited = true := hok
    rw [dfsSkipAll_dfsForest g target 0 as visited hskip]
    show (⟨[], visited, false, dfsSkipAll (as ++ bs) visited⟩ : DfsOut) = _
    rw [dfsSkipAll_append as bs visited hskip]
    rfl
  | succ fuel ihf =>
    intro as
    induction as with
    | nil =>
      intro visited hok bs
      rw [List.nil_append, dfsForest_nil]
      simp [combineOut, DfsOut.eta]
    | cons d rest ihs =>
      intro visited hok bs
      by_cases hv : visited.contains d.delegatee.Name
      · rw [dfsForest_skip _ _ _ _ _ _ hv] at hok
        rw [List.cons_append, dfsForest_skip _ _ _ _ _ _ hv,
          dfsForest_skip _ _ _ _ _ _ hv]
        exact ihs visited hok bs
      · have hv' : visited.contains d.delegatee.Name = false := by simpa using hv
        by_cases hstop : (d.delegatee.Terminating ||
            (dfsSub g target fuel d visited).stopped) = true
        · rw [List.cons_append]
          rw [dfsForest_visit _ _ _ _ _ _ hv', if_pos hstop]
          rw [dfsForest_visit _ _ _ _ _ _ hv', if_pos hstop]
          simp
        · rw [dfsForest_visit _ _ _ _ _ _ hv', if_neg hstop] at hok
          have hok' : ((dfsSub g target fuel d visited).ok &&
              (dfsForest g target (fuel+1) rest
                (dfsSub g target fuel d visited).visited).ok) = true := hok
          have hsubok := (Bool.and_eq_true_iff.mp hok').1
          have hrestok := (Bool.and_eq_true_iff.mp hok').2
          rw [List.cons_append]
          rw [dfsForest_visit _ _ _ _ _ _ hv', if_neg hstop]
          rw [ihs ((dfsSub g target fuel d visited).visited) hrestok bs]
          rw [dfsForest_visit _ _ _ _ _ _ hv', if_neg hstop]
          by_cases hrs : (dfsForest g target (fuel+1) rest
              (dfsSub g target fuel d visited).visited).stopped = true
          · rw [if_pos hrs]
            simp [hrs]
          · rw [if_neg hrs]
            simp [combineOut, hsubok, hrs]

theorem nextAux_some_dfs (g : String → List DelegatedRole) (target : String)
    (F : Nat) :
    ∀ stack visited d stack' visited',
      nextAux stack visited = some (d, stack', visited') →
      ∃ rest, dfsForest g target F stack visited =
          dfsForest g target F (d :: rest) visited ∧
        visited.contains d.delegatee.Name = false ∧
        visited' = d.delegatee.Name :: visited ∧
        ((d.delegatee.Terminating = true ∧ stack' = []) ∨
         (d.delegatee.Terminating = false ∧ stack' = rest)) := by
  intro stack
  induction stack with
  | nil => intro visited d stack' visited' h; simp [nextAux] at h
  | cons hd tl ih =>
    intro visited d stack' visited' h
    by_cases hv : visited.contains hd.delegatee.Name
    · rw [nextAux, if_pos hv] at h
      obtain ⟨rest, heq, h1, h2, h3⟩ := ih visited d stack' visited' h
      exact ⟨rest, by rw [dfsForest_skip _ _ _ _ _ _ hv]; exact heq, h1, h2, h3⟩
    · rw [nextAux, if_neg hv] at h
      by_cases ht : hd.delegatee.Terminating
      · rw [if_pos ht] at h
        simp only [Option.some.injEq, Prod.mk.injEq] at h
        obtain ⟨rfl, rfl, rfl⟩ := h
        exact ⟨tl, rfl, by simpa using hv, rfl, Or.inl ⟨ht, rfl⟩⟩
      · rw [if_neg ht] at h
        simp only [Option.some.injEq, Prod.mk.injEq] at h
        obtain ⟨rfl, rfl, rfl⟩ := h
        exact ⟨tl, rfl, by simpa using hv, rfl,
          Or.inr ⟨by simpa using ht, rfl⟩⟩

theorem iterTraverse_eq_dfsForest (g : String → List DelegatedRole)
    (target : String)
    (hm : ∀ name, ∀ r ∈ g name, ∃ b, r.MatchesPathFn target = .ok b) :
    ∀ mfuel stack visited F,
      (dfsForest g target F stack visited).ok = true →
      iterTraverse g target mfuel stack visited =
        .ok ((dfsForest g target F stack visited).visits.take mfuel) := by
  intro mfuel
  induction mfuel with
  | zero =>
    intro stack visited F _
    simp [iterTraverse]
  | succ mfuel ih =>
    intro stack visited F hok
    cases hn : nextAux stack visited with
    | none =>
      rw [dfsForest_exhausted g target F stack visited hn]
      simp only [iterTraverse, hn]
      simp
    | some v =>
      obtain ⟨d, stack', visited'⟩ := v
      obtain ⟨rest, heq, hfresh, hvis, hterm⟩ :=
        nextAux_some_dfs g target F stack visited d stack' visited' hn
      rw [heq] at hok ⊢
      obtain ⟨f, rfl⟩ : ∃ f, F = f + 1 := by
        cases F with
        | zero =>
          rw [dfsForest_zero_unvisited _ _ _ _ _ hfresh] at hok
          exact absurd hok (by simp)
        | succ f => exact ⟨f, rfl⟩
      have hmd : addRoles target d.delegatee.Name default
          (g d.delegatee.Name) stack' =
          (none, matchedDelegations g target d.delegatee.Name ++ stack') :=
        addRoles_total target d.delegatee.Name default
          (g d.delegatee.Name) stack' (hm d.delegatee.Name)
      rw [dfsForest_visit _ _ _ _ _ _ hfresh] at hok ⊢
      by_cases hstop : (d.delegatee.Terminating ||
          (dfsSub g target f d visited).stopped) = true
      · rw [if_pos hstop] at hok ⊢
        have hsubok : (dfsSub g target f d visited).ok = true := hok
        have hmono : dfsForest g target (f+1)
            (matchedDelegations g target d.delegatee.Name)
            (d.delegatee.Name :: visited) = dfsSub g target f d visited :=
          dfsForest_mono g target f
            (matchedDelegations g target d.delegatee.Name)
            (d.delegatee.Name :: visited) (f+1) (by omega) hsubok
        have hmachine : iterTraverse g target mfuel
            (matchedDelegations g target d.delegatee.Name ++ stack') visited' =
            .ok ((dfsSub g target f d visited).visits.take mfuel) := by
          rcases hterm with ⟨ht, hs⟩ | ⟨ht, hs⟩
          · rw [hs, List.append_nil, hvis]
            exact ih _ _ f hsubok
          · have hstop2 : (dfsSub g target f d visited).stopped = true := by
              rcases Bool.or_eq_true_iff.mp hstop with h | h
              · rw [ht] at h; exact absurd h (by simp)
              · exact h
            have happ := dfsForest_append g target (f+1)
              (matchedDelegations g target d.delegatee.Name)
              (d.delegatee.Name :: visited)
              (by rw [hmono]; exact hsubok) stack'
            rw [hmono, if_pos hstop2] at happ
            rw [hvis]
            have hih := ih (matchedDelegations g target d.delegatee.Name ++ stack')
              (d.delegatee.Name :: visited) (f+1) (by rw [happ]; exact hsubok)
            rw [happ] at hih
            exact hih
        simp only [iterTraverse, hn, hmd, hmachine]
        rw [List.take_succ_cons]
      · rw [if_neg hstop] at hok ⊢
        have hok' : ((dfsSub g target f d visited).ok &&
            (dfsForest g target (f+1) rest
              (dfsSub g target f d visited).visited).ok) = true := hok
        have hsubok : (dfsSub g target f d visited).ok = true :=
          (Bool.and_eq_true_iff.mp hok').1
        have hrestok : (dfsForest g target (f+1) rest
            (dfsSub g target f d visited).visited).ok = true :=
          (Bool.and_eq_true_iff.mp hok').2
        have hs : stack' = rest := by
          rcases hterm with ⟨ht, hs⟩ | ⟨ht, hs⟩
          · rw [ht] at hstop
            exact absurd (by simp : (true ||
              (dfsSub g target f d visited).stopped) = true) hstop
          · exact hs
        have hsubstop : (dfsSub g target f d visited).stopped = false := by
          cases hb : (dfsSub g target f d visited).stopped
          · rfl
          · exact absurd (by simp [hb] : (d.delegatee.Terminating ||
              (dfsSub g target f d visited).stopped) = true) hstop
        have hmono : dfsForest g target (f+1)
            (matchedDelegations g target d.delegatee.Name)
            (d.delegatee.Name :: visited) = dfsSub g target f d visited :=
          dfsForest_mono g target f
            (matchedDelegations g target d.delegatee.Name)
            (d.delegatee.Name :: visited) (f+1) (by omega) hsubok
        have happ := dfsForest_append g target (f+1)
          (matchedDelegations g target d.delegatee.Name)
          (d.delegatee.Name :: visited)
          (by rw [hmono]; exact hsubok) rest
        rw [hmono, if_neg (by rw [hsubstop]; simp)] at happ
        have hcomb : (combineOut (dfsSub g target f d visited)
            (dfsForest g target (f+1) rest
              (dfsSub g target f d visited).visited)).ok = true := hrestok
        have hmachine : iterTraverse g target mfuel
            (matchedDelegations g target d.delegatee.Name ++ stack') visited' =
            .ok ((combineOut (dfsSub g target f d visited)
              (dfsForest g target (f+1) rest
                (dfsSub g target f d visited).visited)).visits.take mfuel) := by
          rw [hs, hvis]
          have hih := ih (matchedDelegations g target d.delegatee.Name ++ rest)
            (d.delegatee.Name :: visited) (f+1) (by rw [happ]; exact hcomb)
          rw [happ] at hih
          exact hih
        simp only [iterTraverse, hn, hmd, hmachine]
        rw [show (combineOut (dfsSub g target f d visited)
            (dfsForest g target (f+1) rest
              (dfsSub g target f d visited).visited)).visits =
            (dfsSub g target f d visited).visits ++
              (dfsForest g target (f+1) rest
                (dfsSub g target f d visited).visited).visits from rfl]
        rw [List.take_succ_cons]

/-! ### Resolver loop facts -/

theorem resolveLoop_log (c : Client) (snapshot : Snapshot) (target : String) :
    ∀ fuel it store log,
      resolveLoop c snapshot target fuel it store log =
        ((resolveLoop c snapshot target fuel it store []).1,
         (resolveLoop c snapshot target fuel it store []).2.1,
         log ++ (resolveLoop c snapshot target fuel it store []).2.2) := by
  intro fuel
  induction fuel with
  | zero => intro it store log; simp [resolveLoop]
  | succ fuel ih =>
    intro it store log
    cases hn : it.next with
    | none => simp [resolveLoop, hn]
    | some v =>
      obtain ⟨d, it'⟩ := v
      rcases hload : loadDelegatedTargets c store snapshot d.delegatee.Name d.verifier
        with ⟨res, store'⟩
      cases res with
      | error e => simp [resolveLoop, hn, hload]
      | ok targets =>
        cases hfind : targets.Targets.lookup target with
        | some m => simp [resolveLoop, hn, hload, hfind]
        | none =>
          cases hdel : targets.Delegations with
          | none =>
            simp only [resolveLoop, hn, hload, hfind, hdel]
            rw [ih, ih]
            rw [ih it' store' ([] ++ [Event.loaded d (d.delegatee.Name == "targets")])]
            simp
          | some dels =>
            cases hv : c.newDelegationsVerifierFn dels with
            | none => simp [resolveLoop, hn, hload, hfind, hdel, hv]
            | some dv =>
              rcases hadd : it'.add dels.Roles d.delegatee.Name dv with ⟨err, it''⟩
              cases err with
              | some e => simp [resolveLoop, hn, hload, hfind, hdel, hv, hadd]
              | none =>
                simp only [resolveLoop, hn, hload, hfind, hdel, hv, hadd]
                rw [ih, ih]
                rw [ih it'' store' ([] ++ [Event.loaded d (d.delegatee.Name == "targets")] ++
                  [Event.registered d.delegatee.Name dels.Roles])]
                simp

/-- Whether an error is one of the two traversal outcomes the resolver loop
itself produces (graph exhausted, bound hit), as opposed to a failure
propagated from a collaborator. -/
def ResolveErr.isTraversalOutcome : ResolveErr → Bool
  | .unknownTarget _ _ => true
  | .maxDelegations _ _ _ => true
  | _ => false

theorem loadDelegatedTargets_not_traversal (c : Client)
    (store : List (String × String)) (snapshot : Snapshot) (role : String)
    (verifier : DelegationsVerifier) :
    ∀ e, (loadDelegatedTargets c store snapshot role verifier).1 = .error e →
      e.isTraversalOutcome = false := by
  intro e h
  unfold loadDelegatedTargets at h
  dsimp only at h
  cases hmeta : snapshot.Meta.lookup (role ++ ".json") with
  | none =>
    rw [hmeta] at h
    simp only [Except.error.injEq] at h
    rw [← h]
    rfl
  | some fileMeta =>
    rw [hmeta] at h
    cases hcache : localMetaFromSnapshot c (role ++ ".json") fileMeta with
    | some raw =>
      simp only [hcache] at h
      cases hdec : (if role == "targets"
          then c.db.Unmarshal raw role fileMeta.Version
          else verifier.Unmarshal raw role fileMeta.Version) with
      | error e0 =>
        simp only [hdec, Except.error.injEq] at h
        rw [← h]; rfl
      | ok targets =>
        simp only [hdec] at h
        simp at h
    | none =>
      simp only [hcache] at h
      cases hdl : c.download (role ++ ".json") fileMeta with
      | error e0 =>
        simp only [hdl, Except.error.injEq] at h
        rw [← h]; rfl
      | ok raw =>
        simp only [hdl] at h
        cases hdec : (if role == "targets"
            then c.db.Unmarshal raw role fileMeta.Version
            else verifier.Unmarshal raw role fileMeta.Version) with
        | error e0 =>
          simp only [hdec, Except.error.injEq] at h
          rw [← h]; rfl
        | ok targets =>
          simp only [hdec] at h
          cases hset : SetMeta c store (role ++ ".json") raw with
          | error e0 =>
            simp only [hset, Bool.false_eq_true, if_false, Except.error.injEq] at h
            unfold SetMeta at hset
            by_cases hf : c.setMetaFails (role ++ ".json") raw
            · rw [if_pos hf] at hset
              simp only [Except.error.injEq] at hset
              rw [← h, ← hset]; rfl
            · rw [if_neg hf] at hset
              exact absurd hset (by simp)
          | ok store2 =>
            simp only [hset] at h
            simp at h

theorem resolveLoop_unknownTarget_iff (c : Client) (snapshot : Snapshot)
    (target : String) :
    ∀ fuel it store log,
      ((resolveLoop c snapshot target fuel it store log).1 =
          .error (.unknownTarget target snapshot.Version) ↔
        exhaustedBeforeFound c snapshot target fuel it store = true) := by
  intro fuel
  induction fuel with
  | zero =>
    intro it store log
    simp [resolveLoop, exhaustedBeforeFound]
  | succ fuel ih =>
    intro it store log
    cases hn : it.next with
    | none => simp [resolveLoop, exhaustedBeforeFound, hn]
    | some v =>
      obtain ⟨d, it'⟩ := v
      rcases hload : loadDelegatedTargets c store snapshot d.delegatee.Name d.verifier
        with ⟨res, store'⟩
      cases res with
      | error e =>
        have hner := loadDelegatedTargets_not_traversal c store snapshot
          d.delegatee.Name d.verifier e (by rw [hload])
        simp only [resolveLoop, exhaustedBeforeFound, hn, hload]
        constructor
        · intro h
          simp only [Except.error.injEq] at h
          rw [h] at hner
          simp [ResolveErr.isTraversalOutcome] at hner
        · intro h
          exact absurd h (by simp)
      | ok targets =>
        cases hfind : targets.Targets.lookup target with
        | some m => simp [resolveLoop, exhaustedBeforeFound, hn, hload, hfind]
        | none =>
          cases hdel : targets.Delegations with
          | none =>
            simp only [resolveLoop, exhaustedBeforeFound, hn, hload, hfind, hdel]
            exact ih it' store' _
          | some dels =>
            cases hv : c.newDelegationsVerifierFn dels with
            | none => simp [resolveLoop, exhaustedBeforeFound, hn, hload, hfind, hdel, hv]
            | some dv =>
              rcases hadd : it'.add dels.Roles d.delegatee.Name dv with ⟨err, it''⟩
              cases err with
              | some e =>
                simp [resolveLoop, exhaustedBeforeFound, hn, hload, hfind, hdel, hv, hadd]
              | none =>
                simp only [resolveLoop, exhaustedBeforeFound, hn, hload, hfind, hdel,
                  hv, hadd]
                exact ih it'' store' _

theorem resolveLoop_maxDelegations_iff (c : Client) (snapshot : Snapshot)
    (target : String) :
    ∀ fuel it store log,
      ((resolveLoop c snapshot target fuel it store log).1 =
          .error (.maxDelegations target c.MaxDelegations snapshot.Version) ↔
        runsOutOfBudget c snapshot target fuel it store = true) := by
  intro fuel
  induction fuel with
  | zero =>
    intro it store log
    simp [resolveLoop, runsOutOfBudget]
  | succ fuel ih =>
    intro it store log
    cases hn : it.next with
    | none => simp [resolveLoop, runsOutOfBudget, hn]
    | some v =>
      obtain ⟨d, it'⟩ := v
      rcases hload : loadDelegatedTargets c store snapshot d.delegatee.Name d.verifier
        with ⟨res, store'⟩
      cases res with
      | error e =>
        have hner := loadDelegatedTargets_not_traversal c store snapshot
          d.delegatee.Name d.verifier e (by rw [hload])
        simp only [resolveLoop, runsOutOfBudget, hn, hload]
        constructor
        · intro h
          simp only [Except.error.injEq] at h
          rw [h] at hner
          simp [ResolveErr.isTraversalOutcome] at hner
        · intro h
          exact absurd h (by simp)
      | ok targets =>
        cases hfind : targets.Targets.lookup target with
        | some m => simp [resolveLoop, runsOutOfBudget, hn, hload, hfind]
        | none =>
          cases hdel : targets.Delegations with
          | none =>
            simp only [resolveLoop, runsOutOfBudget, hn, hload, hfind, hdel]
            exact ih it' store' _
          | some dels =>
            cases hv : c.newDelegationsVerifierFn dels with
            | none => simp [resolveLoop, runsOutOfBudget, hn, hload, hfind, hdel, hv]
            | some dv =>
              rcases hadd : it'.add dels.Roles d.delegatee.Name dv with ⟨err, it''⟩
              cases err with
              | some e =>
                simp [resolveLoop, runsOutOfBudget, hn, hload, hfind, hdel, hv, hadd]
              | none =>
                simp only [resolveLoop, runsOutOfBudget, hn, hload, hfind, hdel,
                  hv, hadd]
                exact ih it'' store' _

theorem resolveLoop_loaded_matched (c : Client) (snapshot : Snapshot)
    (target : String) :
    ∀ fuel it store,
      it.target = target →
      (∀ e ∈ it.stack, e.delegatee.MatchesPathFn target = .ok true) →
      ∀ ev ∈ (resolveLoop c snapshot target fuel it store []).2.2,
        ∀ d b, ev = .loaded d b →
          d.delegatee.MatchesPathFn target = .ok true := by
  intro fuel
  induction fuel with
  | zero =>
    intro it store _ _ ev hev
    simp [resolveLoop] at hev
  | succ fuel ih =>
    intro it store htarget hstack ev hev d0 b0 hev0
    cases hn : it.next with
    | none =>
      rw [resolveLoop] at hev
      rw [hn] at hev
      simp at hev
    | some v =>
      obtain ⟨d, it'⟩ := v
      obtain ⟨-, -, htarget', hd_mem, hsub⟩ := next_visited it d it' hn
      have hd : d.delegatee.MatchesPathFn target = .ok true := hstack d hd_mem
      have hstack' : ∀ e ∈ it'.stack, e.delegatee.MatchesPathFn target = .ok true :=
        fun e he => hstack e (hsub e he)
      rcases hload : loadDelegatedTargets c store snapshot d.delegatee.Name d.verifier
        with ⟨res, store'⟩
      cases res with
      | error e =>
        simp only [resolveLoop, hn, hload] at hev
        simp at hev
        rw [hev] at hev0
        injection hev0 with h1 h2
        rw [← h1]
        exact hd
      | ok targets =>
        cases hfind : targets.Targets.lookup target with
        | some m =>
          simp only [resolveLoop, hn, hload, hfind] at hev
          simp at hev
          rw [hev] at hev0
          injection hev0 with h1 h2
          rw [← h1]
          exact hd
        | none =>
          cases hdel : targets.Delegations with
          | none =>
            simp only [resolveLoop, hn, hload, hfind, hdel] at hev
            rw [resolveLoop_log] at hev
            simp only [List.mem_append] at hev
            rcases hev with hev | hev
            · simp at hev
              rw [hev] at hev0
              injection hev0 with h1 h2
              rw [← h1]
              exact hd
            · exact ih it' store' (htarget'.trans htarget) hstack' ev hev d0 b0 hev0
          | some dels =>
            cases hv : c.newDelegationsVerifierFn dels with
            | none =>
              simp only [resolveLoop, hn, hload, hfind, hdel, hv] at hev
              simp at hev
              rw [hev] at hev0
              injection hev0 with h1 h2
              rw [← h1]
              exact hd
            | some dv =>
              rcases hadd : it'.add dels.Roles d.delegatee.Name dv with ⟨err, it''⟩
              have htarget'' : it''.target = target := by
                have := (add_visited it' dels.Roles d.delegatee.Name dv).2
                rw [hadd] at this
                rw [this]
                exact htarget'.trans htarget
              have hstack'' : ∀ e ∈ it''.stack,
                  e.delegatee.MatchesPathFn target = .ok true := by
                intro e he
                unfold delegationsIterator.add at hadd
                rcases har : addRoles it'.target d.delegatee.Name dv dels.Roles it'.stack
                  with ⟨err2, stack2⟩
                rw [har] at hadd
                simp only [Prod.mk.injEq] at hadd
                have hit2 : stack2 = it''.stack :=
                  congrArg delegationsIterator.stack hadd.2
                rw [← hit2] at he
                rcases addRoles_mem it'.target d.delegatee.Name dv dels.Roles it'.stack e
                  (by rw [har]; exact he) with hmem | hmem
                · exact hstack' e hmem
                · have hm2 := hmem.2.1
                  unfold DelegatedRole.MatchesPath at hm2
                  rw [htarget'.trans htarget] at hm2
                  exact hm2
              cases err with
              | some e =>
                simp only [resolveLoop, hn, hload, hfind, hdel, hv, hadd] at hev
                simp at hev
                rw [hev] at hev0
                injection hev0 with h1 h2
                rw [← h1]
                exact hd
              | none =>
                simp only [resolveLoop, hn, hload, hfind, hdel, hv, hadd] at hev
                rw [resolveLoop_log] at hev
                simp only [List.mem_append] at hev
                rcases hev with hev | hev
                · simp at hev
                  rcases hev with hev | hev
                  · rw [hev] at hev0
                    injection hev0 with h1 h2
                    rw [← h1]
                    exact hd
                  · rw [hev] at hev0
                    exact absurd hev0 (by simp)
                · exact ih it'' store' htarget'' hstack'' ev hev d0 b0 hev0

theorem resolveLoop_no_targets_after (c : Client) (snapshot : Snapshot)
    (target : String) :
    ∀ fuel it store,
      it.visitedRoles.contains "targets" = true →
      ∀ ev ∈ (resolveLoop c snapshot target fuel it store []).2.2,
        ∀ d b, ev = .loaded d b →
          d.delegatee.Name ≠ "targets" ∧ b = false := by
  intro fuel
  induction fuel with
  | zero =>
    intro it store _ ev hev
    simp [resolveLoop] at hev
  | succ fuel ih =>
    intro it store hvisited ev hev d0 b0 hev0
    cases hn : it.next with
    | none =>
      rw [resolveLoop] at hev
      rw [hn] at hev
      simp at hev
    | some v =>
      obtain ⟨d, it'⟩ := v
      obtain ⟨hfresh, hvis, -, -, -⟩ := next_visited it d it' hn
      have hname : d.delegatee.Name ≠ "targets" := by
        intro hcon
        rw [hcon] at hfresh
        rw [hvisited] at hfresh
        exact absurd hfresh (by simp)
      have hb : (d.delegatee.Name == "targets") = false := by
        rw [beq_eq_false_iff_ne]
        exact hname
      have hvisited' : it'.visitedRoles.contains "targets" = true := by
        rw [hvis]
        simp only [List.contains_cons]
        rw [hvisited]
        simp
      rcases hload : loadDelegatedTargets c store snapshot d.delegatee.Name d.verifier
        with ⟨res, store'⟩
      cases res with
      | error e =>
        simp only [resolveLoop, hn, hload] at hev
        simp at hev
        rw [hev] at hev0
        injection hev0 with h1 h2
        exact ⟨h1 ▸ hname, h2 ▸ hb⟩
      | ok targets =>
        cases hfind : targets.Targets.lookup target with
        | some m =>
          simp only [resolveLoop, hn, hload, hfind] at hev
          simp at hev
          rw [hev] at hev0
          injection hev0 with h1 h2
          exact ⟨h1 ▸ hname, h2 ▸ hb⟩
        | none =>
          cases hdel : targets.Delegations with
          | none =>
            simp only [resolveLoop, hn, hload, hfind, hdel] at hev
            rw [resolveLoop_log] at hev
            simp only [List.mem_append] at hev
            rcases hev with hev | hev
            · simp at hev
              rw [hev] at hev0
              injection hev0 with h1 h2
              exact ⟨h1 ▸ hname, h2 ▸ hb⟩
            · exact ih it' store' hvisited' ev hev d0 b0 hev0
          | some dels =>
            cases hv : c.newDelegationsVerifierFn dels with
            | none =>
              simp only [resolveLoop, hn, hload, hfind, hdel, hv] at hev
              simp at hev
              rw [hev] at hev0
              injection hev0 with h1 h2
              exact ⟨h1 ▸ hname, h2 ▸ hb⟩
            | some dv =>
              rcases hadd : it'.add dels.Roles d.delegatee.Name dv with ⟨err, it''⟩
              have hvisited'' : it''.visitedRoles.contains "targets" = true := by
                have := (add_visited it' dels.Roles d.delegatee.Name dv).1
                rw [hadd] at this
                rw [this]
                exact hvisited'
              cases err with
              | some e =>
                simp only [resolveLoop, hn, hload, hfind, hdel, hv, hadd] at hev
                simp at hev
                rw [hev] at hev0
                injection hev0 with h1 h2
                exact ⟨h1 ▸ hname, h2 ▸ hb⟩
              | none =>
                simp only [resolveLoop, hn, hload, hfind, hdel, hv, hadd] at hev
                rw [resolveLoop_log] at hev
                simp only [List.mem_append] at hev
                rcases hev with hev | hev
                · simp at hev
                  rcases hev with hev | hev
                  · rw [hev] at hev0
                    injection hev0 with h1 h2
                    exact ⟨h1 ▸ hname, h2 ▸ hb⟩
                  · rw [hev] at hev0
                    exact absurd hev0 (by simp)
                · exact ih it'' store' hvisited'' ev hev d0 b0 hev0

/-! ### Additional concrete material for claims -/

/-- The synthetic seed edge `newDelegationsIterator` starts from. -/
def seedEdge : Delegation :=
  { delegator := "", verifier := default, delegatee := topTargetsRole }

/-- Iterator holding a single pending terminating edge. -/
def cexIt : delegationsIterator :=
  { stack := [{ delegator := "targets", verifier := default, delegatee := mkRole "A" true }],
    target := "t", visitedRoles := [] }

/-- Empty iterator used to exercise `add` in isolation. -/
def nIt : delegationsIterator :=
  { stack := [], target := "t", visitedRoles := [] }

/-- The decoded top-level targets metadata of the top-level-hit scenario. -/
def hitTargets : Targets :=
  { Version := 1, Targets := [("a/b", hitMeta)],
    Delegations := some { Keys := [], Roles := [mkRole "A" false] } }

/-- The cycle client with an iteration budget of 2: the chain needs a third
visit, so the budget runs out. -/
def boundClient : Client := { cycClient with MaxDelegations := 2 }

/-- Example delegation graph for the pre-order claim: top targets delegates
to X then Y; X delegates to a terminating X1 and then X2; Y delegates to Y1. -/
def gEx : String → List DelegatedRole := fun name =>
  if name = "targets" then [mkRole "X" false, mkRole "Y" false]
  else if name = "X" then [mkRole "X1" true, mkRole "X2" false]
  else if name = "Y" then [mkRole "Y1" false]
  else []

/-! ### Claim C1 -/

/-- C1, counterexample: the claim says that after `next()` returns an edge
with `delegatee.terminating == true`, no further edge is ever produced for
the rest of the resolution, even if `add` is called again with matching
roles.  On the code this is false: after the terminating edge "A" is
returned (and the stack cleared), an `add` of the matching role "B" — which
is exactly what `getTargetFileMeta` does with the terminating role's own
delegations — makes the following `next()` produce "B". -/
theorem C1_counterexample :
    (runOps [.nextOp, .addOp [mkRole "B" false] "A" default, .nextOp] cexIt).1 =
      ["A", "B"] ∧
    (mkRole "A" true).Terminating = true := by
  exact ⟨rfl, rfl⟩

/-- C1, amended: when `next()` returns an edge whose delegatee is
terminating, it empties the pending stack before returning, so every edge
that was pending at that moment is discarded; only edges registered by
later `add` calls (the terminating role's own delegations) can still be
produced. -/
theorem C1_terminating_clears_pending (it : delegationsIterator)
    (d : Delegation) (it' : delegationsIterator)
    (h : it.next = some (d, it'))
    (ht : d.delegatee.Terminating = true) : it'.stack = [] := by
  unfold delegationsIterator.next at h
  cases hn : nextAux it.stack it.visitedRoles with
  | none => rw [hn] at h; exact absurd h (by simp)
  | some v =>
    obtain ⟨d0, stack', visited'⟩ := v
    rw [hn] at h
    simp only [Option.some.injEq, Prod.mk.injEq] at h
    have hstack : stack' = [] := by
      refine nextAux_terminating it.stack it.visitedRoles d0 stack' visited' hn ?_
      rw [h.1]
      exact ht
    have : ({ it with stack := stack', visitedRoles := visited' } :
        delegationsIterator) = it' := h.2
    rw [← this, hstack]

/-- The terminating edge held by `cexIt`. -/
def cexAEdge : Delegation :=
  { delegator := "targets", verifier := default, delegatee := mkRole "A" true }

/-- The iterator state after `cexIt.next`. -/
def cexItAfter : delegationsIterator :=
  { stack := [], target := "t", visitedRoles := ["A"] }

/-- Witness for the amended C1 at a concrete input. -/
theorem C1_amended_witness :
    cexIt.next = some (cexAEdge, cexItAfter) ∧ cexItAfter.stack = [] := by
  refine ⟨rfl, ?_⟩
  exact C1_terminating_clears_pending cexIt cexAEdge cexItAfter rfl rfl

/-! ### Claim C2 -/

/-- C2: across one resolution, every role name is produced by `next()` at
most once — for any interleaving of `next` and `add` calls against a fresh
iterator the produced names are pairwise distinct, because of the single
global visited set — and in the concrete two-role cycle (top targets → A,
A → B, B → A) the full resolution terminates with each of "targets", "A"
and "B" visited exactly once and the result `UnknownTarget`. -/
theorem C2_each_role_at_most_once :
    (∀ (target : String) (ops : List ItOp),
      (runOps ops (newDelegationsIterator target)).1.Nodup) ∧
    (getTargetFileMeta cycClient "a/b").1 = .error (.unknownTarget "a/b" 1) ∧
    (getTargetFileMeta cycClient "a/b").2.2.filterMap Event.loadInfo =
      [("targets", true), ("A", false), ("B", false)] := by
  refine ⟨?_, rfl, rfl⟩
  intro target ops
  exact (runOps_fresh ops (newDelegationsIterator target)).1

/-! ### Claim C3 -/

/-- C3: `add` pushes matching delegated roles in reverse declared order and
`next()` pops from the top, so the resolution visits roles in exactly the
order of the reference pre-order depth-first traversal `dfsForest` — first-
declared matching sibling first, its entire subtree before any later
sibling — for every delegation graph `g` whose matchers are total, whenever
the reference traversal is complete at some depth `F`; the iteration budget
`mfuel` merely truncates the visit sequence. -/
theorem C3_preorder_dfs (g : String → List DelegatedRole) (target : String)
    (hm : ∀ name, ∀ r ∈ g name, ∃ b, r.MatchesPathFn target = .ok b)
    (F : Nat)
    (hok : (dfsForest g target F (newDelegationsIterator target).stack []).ok = true)
    (mfuel : Nat) :
    iterTraverse g target mfuel (newDelegationsIterator target).stack [] =
      .ok ((dfsForest g target F
        (newDelegationsIterator target).stack []).visits.take mfuel) :=
  iterTraverse_eq_dfsForest g target hm mfuel _ _ F hok

/-- Witness for C3 on the concrete graph `gEx`, whose terminating role X1
prunes X2 and Y: both the machine and the reference traversal produce
exactly ["targets", "X", "X1"]. -/
theorem C3_witness :
    iterTraverse gEx "t" 10 (newDelegationsIterator "t").stack [] =
      .ok ((dfsForest gEx "t" 5
        (newDelegationsIterator "t").stack []).visits.take 10) ∧
    (dfsForest gEx "t" 5 (newDelegationsIterator "t").stack []).visits =
      ["targets", "X", "X1"] ∧
    iterTraverse gEx "t" 10 (newDelegationsIterator "t").stack [] =
      .ok ["targets", "X", "X1"] := by
  refine ⟨?_, rfl, rfl⟩
  refine C3_preorder_dfs gEx "t" ?_ 5 (by rfl) 10
  intro name r hr
  unfold gEx at hr
  by_cases h1 : name = "targets"
  · rw [if_pos h1] at hr
    simp only [List.mem_cons, List.not_mem_nil, or_false] at hr
    rcases hr with rfl | rfl
    · exact ⟨true, rfl⟩
    · exact ⟨true, rfl⟩
  · rw [if_neg h1] at hr
    by_cases h2 : name = "X"
    · rw [if_pos h2] at hr
      simp only [List.mem_cons, List.not_mem_nil, or_false] at hr
      rcases hr with rfl | rfl
      · exact ⟨true, rfl⟩
      · exact ⟨true, rfl⟩
    · rw [if_neg h2] at hr
      by_cases h3 : name = "Y"
      · rw [if_pos h3] at hr
        simp only [List.mem_cons, List.not_mem_nil, or_false] at hr
        rcases hr with rfl
        exact ⟨true, rfl⟩
      · rw [if_neg h3] at hr
        simp at hr

/-! ### Claim C4 -/

theorem Unmarshal_versionMismatch (v : DelegationsVerifier) (raw role : String)
    (expected : Int) (tm : Targets)
    (hsig : v.checkSigs raw role = .ok ())
    (hdec : v.decode raw = some tm)
    (hver : tm.Version ≠ expected) :
    v.Unmarshal raw role expected =
      .error (.versionMismatch tm.Version expected) := by
  unfold DelegationsVerifier.Unmarshal
  simp only [hsig, hdec]
  rw [if_pos hver]

/-- C4: the expected version handed to verification is exactly the version
the snapshot pins for the role's filename, and cached bytes that decode to
a different version are rejected with a `VersionMismatch` failure wrapped
in the `DecodeFailed` of that filename — never a fallback, never another
error kind, and the store is untouched.  The dispatch `role == "targets"`
selects the root database exactly as `delegations.go:100` does. -/
theorem C4_version_pinned (c : Client) (store : List (String × String))
    (snapshot : Snapshot) (role : String) (verifier : DelegationsVerifier)
    (fileMeta : SnapshotFileMeta) (raw : String) (tm : Targets)
    (hmeta : snapshot.Meta.lookup (role ++ ".json") = some fileMeta)
    (hcache : localMetaFromSnapshot c (role ++ ".json") fileMeta = some raw)
    (hsig : (if role == "targets" then c.db else verifier).checkSigs raw role = .ok ())
    (hdec : (if role == "targets" then c.db else verifier).decode raw = some tm)
    (hver : tm.Version ≠ fileMeta.Version) :
    loadDelegatedTargets c store snapshot role verifier =
      (.error (.decodeFailed (role ++ ".json")
        (.versionMismatch tm.Version fileMeta.Version)), store) := by
  have hunm : (if role == "targets" then c.db.Unmarshal raw role fileMeta.Version
      else verifier.Unmarshal raw role fileMeta.Version) =
      .error (.versionMismatch tm.Version fileMeta.Version) := by
    cases hb : role == "targets"
    · simp only [hb, Bool.false_eq_true, if_false] at hsig hdec ⊢
      exact Unmarshal_versionMismatch verifier raw role fileMeta.Version tm hsig hdec hver
    · simp only [hb, if_true] at hsig hdec ⊢
      exact Unmarshal_versionMismatch c.db raw role fileMeta.Version tm hsig hdec hver
  unfold loadDelegatedTargets
  simp only [hmeta, hcache, hunm]

/-- Client of the version-mismatch scenario: the snapshot pins version 1
for role X but the cached bytes decode to version 2. -/
def vmSnapshot : Snapshot :=
  { Version := 1, Meta := [("X.json", { Version := 1, Hashes := "h", Length := 1 })] }

/-- Decoded metadata of the version-mismatch scenario. -/
def vmTargets : Targets := { Version := 2, Targets := [], Delegations := none }

/-- Verifier of the version-mismatch scenario. -/
def vmVerifier : DelegationsVerifier :=
  tableVerifier (fun raw => if raw = "rawX" then some vmTargets else none)

/-- Client of the version-mismatch scenario. -/
def vmClient : Client :=
  { cycClient with
      localMeta := [("snapshot.json", "rawS"), ("X.json", "rawX")],
      unmarshalSnapshot := fun _ _ _ => .ok vmSnapshot }

/-- Witness for C4 at the concrete version-mismatch scenario. -/
theorem C4_witness :
    loadDelegatedTargets vmClient [] vmSnapshot "X" vmVerifier =
      (.error (.decodeFailed ("X" ++ ".json") (.versionMismatch 2 1)), []) :=
  C4_version_pinned vmClient [] vmSnapshot "X" vmVerifier
    { Version := 1, Hashes := "h", Length := 1 } "rawX" vmTargets
    rfl rfl rfl rfl (by decide)

/-! ### Claim C5 -/

/-- C5: with a loaded snapshot, the resolution fails with
`UnknownTarget(target, snapshot.version)` exactly when the iterator is
exhausted — `next()` returned none within the budget — before the target
was found, and fails with
`MaxDelegationsExceeded(target, MaxDelegations, snapshot.version)` exactly
when the loop completes all `MaxDelegations` iterations without
returning. -/
theorem C5_terminal_outcomes (c : Client) (target : String) (snapshot : Snapshot)
    (hsnap : loadLocalSnapshot c = .ok snapshot) :
    ((getTargetFileMeta c target).1 =
        .error (.unknownTarget target snapshot.Version) ↔
      exhaustedBeforeFound c snapshot target c.MaxDelegations
        (newDelegationsIterator target) c.localStore = true) ∧
    ((getTargetFileMeta c target).1 =
        .error (.maxDelegations target c.MaxDelegations snapshot.Version) ↔
      runsOutOfBudget c snapshot target c.MaxDelegations
        (newDelegationsIterator target) c.localStore = true) := by
  unfold getTargetFileMeta
  rw [hsnap]
  exact ⟨resolveLoop_unknownTarget_iff c snapshot target c.MaxDelegations
      (newDelegationsIterator target) c.localStore [],
    resolveLoop_maxDelegations_iff c snapshot target c.MaxDelegations
      (newDelegationsIterator target) c.localStore []⟩

/-- Witness for C5: the exhausted cycle yields `UnknownTarget` with the
snapshot version, and the same graph under a budget of 2 yields
`MaxDelegationsExceeded`. -/
theorem C5_witness :
    (getTargetFileMeta cycClient "a/b").1 = .error (.unknownTarget "a/b" 1) ∧
    (getTargetFileMeta boundClient "a/b").1 = .error (.maxDelegations "a/b" 2 1) := by
  constructor
  · exact (C5_terminal_outcomes cycClient "a/b" cycSnapshot rfl).1.mpr rfl
  · exact (C5_terminal_outcomes boundClient "a/b" cycSnapshot rfl).2.mpr rfl

/-! ### Claim C6 -/

/-- C6: as soon as a visited role's decoded targets map contains the
requested path, its entry is returned immediately with the store as the
load left it, and the event log gains exactly that one load — no further
role is loaded, verified or registered after the hit. -/
theorem C6_first_match_wins (c : Client) (snapshot : Snapshot) (target : String)
    (fuel : Nat) (it : delegationsIterator) (store : List (String × String))
    (log : List Event) (d : Delegation) (it' : delegationsIterator)
    (targets : Targets) (store' : List (String × String)) (m : TargetFileMeta)
    (hn : it.next = some (d, it'))
    (hload : loadDelegatedTargets c store snapshot d.delegatee.Name d.verifier =
      (.ok targets, store'))
    (hfind : targets.Targets.lookup target = some m) :
    resolveLoop c snapshot target (fuel+1) it store log =
      (.ok m, store', log ++ [.loaded d (d.delegatee.Name == "targets")]) := by
  simp only [resolveLoop, hn, hload, hfind]

/-- Witness for C6: the top-level hit returns the top map's entry after a
single load of the seed edge. -/
theorem C6_witness :
    resolveLoop hitClient cycSnapshot "a/b" 10 (newDelegationsIterator "a/b")
      [] [] = (.ok hitMeta, [], [] ++ [.loaded seedEdge true]) := by
  have h := C6_first_match_wins hitClient cycSnapshot "a/b" 9
    (newDelegationsIterator "a/b") [] [] seedEdge
    { stack := [], target := "a/b", visitedRoles := ["targets"] }
    hitTargets [] hitMeta rfl rfl rfl
  exact h

/-! ### Claim C7 -/

/-- C7: `loadDelegatedTargets` leaves the local store unchanged on every
failure and on every cache hit, and persists exactly the downloaded bytes
under the role's filename when, and only when, the bytes were freshly
downloaded and signature verification and decoding succeeded. -/
theorem C7_persist_only_after_verify (c : Client) (store : List (String × String))
    (snapshot : Snapshot) (role : String) (verifier : DelegationsVerifier) :
    (∀ e, (loadDelegatedTargets c store snapshot role verifier).1 = .error e →
      (loadDelegatedTargets c store snapshot role verifier).2 = store) ∧
    (∀ fileMeta raw,
      snapshot.Meta.lookup (role ++ ".json") = some fileMeta →
      localMetaFromSnapshot c (role ++ ".json") fileMeta = some raw →
      (loadDelegatedTargets c store snapshot role verifier).2 = store) ∧
    (∀ fileMeta raw targets,
      snapshot.Meta.lookup (role ++ ".json") = some fileMeta →
      localMetaFromSnapshot c (role ++ ".json") fileMeta = none →
      c.download (role ++ ".json") fileMeta = .ok raw →
      (loadDelegatedTargets c store snapshot role verifier).1 = .ok targets →
      (loadDelegatedTargets c store snapshot role verifier).2 =
        (role ++ ".json", raw) :: store) := by
  refine ⟨?_, ?_, ?_⟩
  · intro e h
    unfold loadDelegatedTargets at h ⊢
    cases hmeta : snapshot.Meta.lookup (role ++ ".json") with
    | none => simp [hmeta]
    | some fileMeta =>
      simp only [hmeta] at h ⊢
      cases hcache : localMetaFromSnapshot c (role ++ ".json") fileMeta with
      | some raw =>
        simp only [hcache] at h ⊢
        cases hdec : (if role == "targets"
            then c.db.Unmarshal raw role fileMeta.Version
            else verifier.Unmarshal raw role fileMeta.Version) with
        | error e0 => simp [hdec]
        | ok targets => simp only [hdec] at h; simp at h
      | none =>
        simp only [hcache] at h ⊢
        cases hdl : c.download (role ++ ".json") fileMeta with
        | error e0 => simp [hdl]
        | ok raw =>
          simp only [hdl] at h ⊢
          cases hdec : (if role == "targets"
              then c.db.Unmarshal raw role fileMeta.Version
              else verifier.Unmarshal raw role fileMeta.Version) with
          | error e0 => simp [hdec]
          | ok targets =>
            simp only [hdec] at h ⊢
            cases hset : SetMeta c store (role ++ ".json") raw with
            | error e0 => simp [hset]
            | ok store2 => simp only [hset] at h; simp at h
  · intro fileMeta raw hmeta hcache
    unfold loadDelegatedTargets
    simp only [hmeta, hcache]
    cases hdec : (if role == "targets"
        then c.db.Unmarshal raw role fileMeta.Version
        else verifier.Unmarshal raw role fileMeta.Version) with
    | error e0 => simp [hdec]
    | ok targets => simp [hdec]
  · intro fileMeta raw targets hmeta hcache hdl hok
    unfold loadDelegatedTargets at hok ⊢
    simp only [hmeta, hcache, hdl] at hok ⊢
    cases hdec : (if role == "targets"
        then c.db.Unmarshal raw role fileMeta.Version
        else verifier.Unmarshal raw role fileMeta.Version) with
    | error e0 => simp only [hdec] at hok; simp at hok
    | ok targets2 =>
      simp only [hdec] at hok ⊢
      cases hset : SetMeta c store (role ++ ".json") raw with
      | error e0 => simp only [hset] at hok; simp at hok
      | ok store2 =>
        simp only [hset] at hok ⊢
        unfold SetMeta at hset
        by_cases hf : c.setMetaFails (role ++ ".json") raw
        · rw [if_pos hf] at hset
          exact absurd hset (by simp)
        · rw [if_neg hf] at hset
          simp only [Except.ok.injEq] at hset
          simp [← hset]

/-- Client of the fresh-download scenario: role A's bytes are not cached
and are served by the downloader. -/
def dlClient : Client :=
  { cycClient with
      localMeta := [("snapshot.json", "rawS"), ("targets.json", "rawT"),
                    ("B.json", "rawB")],
      download := fun fileName _ =>
        if fileName = "A.json" then .ok "rawA" else .error .notFound }

/-- Witness for C7: a failing load (role not in the snapshot) leaves the
store unchanged, a cache hit leaves it unchanged, and a fresh verified
download persists exactly the downloaded bytes. -/
theorem C7_witness :
    (loadDelegatedTargets cycClient [] cycSnapshot "Z" vmVerifier).2 = [] ∧
    (loadDelegatedTargets cycClient [] cycSnapshot "A" vmVerifier).2 = [] ∧
    (loadDelegatedTargets dlClient [] cycSnapshot "A"
      (tableVerifier cycTable)).2 = [("A" ++ ".json", "rawA")] := by
  refine ⟨?_, ?_, ?_⟩
  · exact (C7_persist_only_after_verify cycClient [] cycSnapshot "Z" vmVerifier).1
      (.roleNotInSnapshot "Z" 1) rfl
  · exact (C7_persist_only_after_verify cycClient [] cycSnapshot "A" vmVerifier).2.1
      { Version := 1, Hashes := "h", Length := 1 } "rawA" rfl rfl
  · exact (C7_persist_only_after_verify dlClient [] cycSnapshot "A"
      (tableVerifier cycTable)).2.2
      { Version := 1, Hashes := "h", Length := 1 } "rawA"
      { Version := 1, Targets := [],
        Delegations := some { Keys := [], Roles := [mkRole "B" false] } }
      rfl rfl rfl rfl

/-! ### Claim C8 -/

theorem add_stack_eq (it : delegationsIterator) (roles : List DelegatedRole)
    (delegator : String) (verifier : DelegationsVerifier) :
    (it.add roles delegator verifier).2.stack =
      (addRoles it.target delegator verifier roles it.stack).2 := by
  unfold delegationsIterator.add
  rcases h : addRoles it.target delegator verifier roles it.stack with ⟨err, st⟩
  rfl

theorem add_err_eq (it : delegationsIterator) (roles : List DelegatedRole)
    (delegator : String) (verifier : DelegationsVerifier) :
    (it.add roles delegator verifier).1 =
      (addRoles it.target delegator verifier roles it.stack).1 := by
  unfold delegationsIterator.add
  rcases h : addRoles it.target delegator verifier roles it.stack with ⟨err, st⟩
  rfl

/-- C8: a delegated role whose path patterns do not match the requested
target is never pushed by `add` — every stack entry is either an old one or
a pushed role whose matcher returned true — and `add` succeeds exactly when
pattern matching succeeded on every role, reporting the matcher's error
otherwise; consequently, in a whole resolution every loader invocation is
for an edge whose matcher accepted the target (the seed's empty path
specification accepts every target), so a non-matching role is never
fetched, verified or visited. -/
theorem C8_nonmatching_never_loaded :
    (∀ (it : delegationsIterator) (roles : List DelegatedRole)
        (delegator : String) (verifier : DelegationsVerifier),
      ∀ e ∈ (it.add roles delegator verifier).2.stack,
        e ∈ it.stack ∨ (e.delegatee ∈ roles ∧
          e.delegatee.MatchesPathFn it.target = .ok true ∧
          e.delegator = delegator)) ∧
    (∀ (it : delegationsIterator) (roles : List DelegatedRole)
        (delegator : String) (verifier : DelegationsVerifier),
      ((it.add roles delegator verifier).1 = none ↔
        ∀ r ∈ roles, ∃ b, r.MatchesPathFn it.target = .ok b)) ∧
    (∀ (c : Client) (snapshot : Snapshot) (target : String) (fuel : Nat)
        (store : List (String × String)) (ev : Event) (d : Delegation) (b : Bool),
      ev ∈ (resolveLoop c snapshot target fuel
        (newDelegationsIterator target) store []).2.2 →
      ev = .loaded d b → d.delegatee.MatchesPathFn target = .ok true) := by
  refine ⟨?_, ?_, ?_⟩
  · intro it roles delegator verifier e he
    rw [add_stack_eq] at he
    rcases addRoles_mem it.target delegator verifier roles it.stack e he with h | h
    · exact Or.inl h
    · exact Or.inr ⟨h.1, h.2.1, h.2.2.1⟩
  · intro it roles delegator verifier
    rw [add_err_eq]
    exact addRoles_none_iff it.target delegator verifier roles it.stack
  · intro c snapshot target fuel store ev d b hev hev0
    refine resolveLoop_loaded_matched c snapshot target fuel
      (newDelegationsIterator target) store rfl ?_ ev hev d b hev0
    intro e he
    simp only [newDelegationsIterator, List.mem_singleton] at he
    rw [he]
    rfl

/-- Witness for C8: the matched role pushed by a concrete `add` passed its
pattern check, and the seed edge loaded by the top-level-hit resolution
matches every target. -/
theorem C8_witness :
    (∃ b, (mkRole "M" false).MatchesPathFn "t" = Except.ok b) ∧
    topTargetsRole.MatchesPathFn "a/b" = .ok true := by
  constructor
  · exact (C8_nonmatching_never_loaded.2.1 nIt [mkRole "M" false]
      "targets" default).mp rfl (mkRole "M" false) (List.mem_singleton.mpr rfl)
  · exact C8_nonmatching_never_loaded.2.2 hitClient cycSnapshot "a/b" 10 []
      (.loaded seedEdge true) seedEdge true (List.mem_singleton.mpr rfl) rfl

/-! ### Claim C9 -/

/-- An edge whose role was already visited in the C9 scenario. -/
def dupEdge : Delegation :=
  { delegator := "p", verifier := default, delegatee := mkRole "dup" false }

/-- An unvisited edge below the duplicates in the C9 scenario. -/
def freshEdge : Delegation :=
  { delegator := "p", verifier := default, delegatee := mkRole "fresh" false }

/-- C9: the call depth of one `next()` invocation grows linearly with the
number of consecutive already-visited duplicates on top of the pending
stack — the source skips them with the recursive self-call
`return d.next()` (`delegations.go:156`), not with a loop, so the consumed
call stack is `k + 1` frames for `k` duplicates, unbounded rather than
constant. -/
theorem C9_skip_depth_unbounded (k : Nat) :
    nextCallDepth (List.replicate k dupEdge ++ [freshEdge]) ["dup"] = k + 1 := by
  induction k with
  | zero => rfl
  | succ k ih =>
    rw [List.replicate_succ, List.cons_append]
    show 1 + nextCallDepth (List.replicate k dupEdge ++ [freshEdge]) ["dup"] = k + 1 + 1
    rw [ih]
    omega

/-! ### Claim C10 -/

/-- Iterator state right after the seed edge has been produced. -/
def seedVisitedIt (target : String) : delegationsIterator :=
  { stack := [], target := target, visitedRoles := ["targets"] }

/-- C10: in any resolution, the role name "targets" can be loaded only as
the very first edge — the seed — and that load dispatches to the
root-trust database; every later loaded edge has a different role name and
is dispatched to the delegation verifier carried on the edge (a maliciously
named "targets" delegated role is skipped by the visited set and never
loaded at all). -/
theorem C10_root_dispatch_only_seed (c : Client) (target : String) :
    (getTargetFileMeta c target).2.2.filterMap Event.loadInfo = [] ∨
    ∃ rest, (getTargetFileMeta c target).2.2.filterMap Event.loadInfo =
        ("targets", true) :: rest ∧
      ∀ p ∈ rest, p.1 ≠ "targets" ∧ p.2 = false := by
  unfold getTargetFileMeta
  cases hsnap : loadLocalSnapshot c with
  | error e => exact Or.inl rfl
  | ok snapshot =>
    cases hfuel : c.MaxDelegations with
    | zero => exact Or.inl rfl
    | succ fuel =>
      have hn : (newDelegationsIterator target).next =
          some (seedEdge, seedVisitedIt target) := rfl
      have hvisited :
          (seedVisitedIt target).visitedRoles.contains "targets" = true := rfl
      rcases hload : loadDelegatedTargets c c.localStore snapshot
        seedEdge.delegatee.Name seedEdge.verifier with ⟨res, store'⟩
      cases res with
      | error e =>
        refine Or.inr ⟨[], ?_, by simp⟩
        simp only [resolveLoop, hn, hload]
        rfl
      | ok targets =>
        cases hfind : targets.Targets.lookup target with
        | some m =>
          refine Or.inr ⟨[], ?_, by simp⟩
          simp only [resolveLoop, hn, hload, hfind]
          rfl
        | none =>
          cases hdel : targets.Delegations with
          | none =>
            refine Or.inr ⟨(resolveLoop c snapshot target fuel
              (seedVisitedIt target) store' []).2.2.filterMap Event.loadInfo, ?_, ?_⟩
            · simp only [resolveLoop, hn, hload, hfind, hdel]
              rw [resolveLoop_log]
              simp only [List.nil_append, List.filterMap_append]
              rfl
            · intro p hp
              simp only [List.mem_filterMap] at hp
              obtain ⟨ev, hev, hinfo⟩ := hp
              cases ev with
              | loaded d b =>
                have hres := resolveLoop_no_targets_after c snapshot target fuel
                  (seedVisitedIt target) store' hvisited (.loaded d b) hev d b rfl
                simp only [Event.loadInfo, Option.some.injEq] at hinfo
                rw [← hinfo]
                exact hres
              | registered _ _ => simp [Event.loadInfo] at hinfo
          | some dels =>
            cases hv : c.newDelegationsVerifierFn dels with
            | none =>
              refine Or.inr ⟨[], ?_, by simp⟩
              simp only [resolveLoop, hn, hload, hfind, hdel, hv]
              rfl
            | some dv =>
              rcases hadd : delegationsIterator.add (seedVisitedIt target)
                dels.Roles seedEdge.delegatee.Name dv with ⟨err, it''⟩
              have hvisited'' : it''.visitedRoles.contains "targets" = true := by
                have := (add_visited (seedVisitedIt target)
                  dels.Roles seedEdge.delegatee.Name dv).1
                rw [hadd] at this
                rw [this]
                exact hvisited
              cases err with
              | some e =>
                refine Or.inr ⟨[], ?_, by simp⟩
                simp only [resolveLoop, hn, hload, hfind, hdel, hv, hadd]
                rfl
              | none =>
                refine Or.inr ⟨(resolveLoop c snapshot target fuel it''
                  store' []).2.2.filterMap Event.loadInfo, ?_, ?_⟩
                · simp only [resolveLoop, hn, hload, hfind, hdel, hv, hadd]
                  rw [resolveLoop_log]
                  simp only [List.nil_append, List.filterMap_append]
                  rfl
                · intro p hp
                  simp only [List.mem_filterMap] at hp
                  obtain ⟨ev, hev, hinfo⟩ := hp
                  cases ev with
                  | loaded d b =>
                    have hres := resolveLoop_no_targets_after c snapshot target
                      fuel it'' store' hvisited'' (.loaded d b) hev d b rfl
                    simp only [Event.loadInfo, Option.some.injEq] at hinfo
                    rw [← hinfo]
                    exact hres
                  | registered _ _ => simp [Event.loadInfo] at hinfo

end GoTuf
